import Mathlib

/-!
Verification development for the mindmapper hierarchy-inference engine.

The definitions below are a shallow embedding of the Python sources:
* `src/src/json_parser.py` — the graph-hierarchy resolver (`RoadmapParser`)
  and the markdown content parser;
* `src/src/browser_legacy/nodes.py` — the geometry-hierarchy resolver
  (`NodeExtractor.infer_hierarchy`, `_find_nearest_header`, `BoundingBox`).

Python floats are modelled as rationals (`Rat`); Python dictionaries with a
known key set are modelled as structures with `Option` fields (a missing key
is `none`); raising code is modelled with `Except`.
-/

namespace Mindmapper

/-- A Python value that can sit in a coordinate/size slot of the input JSON.
`float(v)` succeeds exactly on numeric values; the non-numeric values used by
the claims (arbitrary non-numeric strings, `None`) make `float` raise. -/
inductive PyVal : Type
  | vnum (q : Rat)
  | vstr (s : String)
  | vnone
deriving DecidableEq, Repr

/-- Models Python `float(v)`: `some` on numbers, `none` (raise) on the
non-numeric values appearing in the claims. -/
def pyFloat? : PyVal → Option Rat
  | .vnum q => some q
  | .vstr _ => none
  | .vnone => none

/-- `Node` from `json_parser.py`: a roadmap node with spatial information. -/
structure Node where
  id : String
  label : String
  type : String
  x : Rat
  y : Rat
  width : Rat
  height : Rat
deriving DecidableEq, Repr

/-- A raw node dictionary as it appears in the roadmap JSON.  `position` is
`none` when the `position` key is absent; when present it carries the optional
`x` and `y` entries of the position dictionary.  `label?` is the value of
`data.label` when present. -/
structure RawNode where
  id? : Option String
  type? : Option String
  position : Option (Option PyVal × Option PyVal)
  width? : Option PyVal
  height? : Option PyVal
  label? : Option String
deriving DecidableEq, Repr

/-- A raw edge dictionary: the optional `source` and `target` entries. -/
structure RawEdge where
  source? : Option String
  target? : Option String
deriving DecidableEq, Repr

/-- `RoadmapParser._extract_all_nodes`.  Nodes without position data or
without a label are skipped; `float()` conversion of the coordinates and
dimensions raises (`Except.error`) on non-numeric values, aborting the pass. -/
def extractAllNodes : List RawNode → Except Unit (List Node)
  | [] => .ok []
  | n :: rest =>
    match n.position with
    | none => extractAllNodes rest
    | some (x?, y?) =>
      match x?, y? with
      | some xv, some yv =>
        let w := n.width?.getD (PyVal.vnum 0)
        let h := n.height?.getD (PyVal.vnum 0)
        let label := n.label?.getD ""
        if label = "" then extractAllNodes rest
        else
          match pyFloat? xv, pyFloat? yv, pyFloat? w, pyFloat? h with
          | some x, some y, some wq, some hq =>
            (extractAllNodes rest).map
              (fun l => Node.mk (n.id?.getD "") label (n.type?.getD "") x y wq hq :: l)
          | _, _, _, _ => .error ()
      | _, _ => extractAllNodes rest

/-- `RoadmapParser._build_parent_graph`: child id → parent id, later edges
overwriting earlier ones; edges with a missing or empty source/target are
skipped. -/
def buildParentGraph (edges : List RawEdge) : String → Option String :=
  edges.foldl
    (fun m e =>
      match e.source?, e.target? with
      | some s, some t =>
        if s ≠ "" ∧ t ≠ "" then fun k => if k = t then some s else m k else m
      | _, _ => m)
    (fun _ => none)

/-- The `nodes_by_id` dictionary comprehension in `extract_topics`: later
nodes with the same id overwrite earlier ones. -/
def nodesById (l : List Node) : String → Option Node :=
  l.foldl (fun m n => fun k => if k = n.id then some n else m k) (fun _ => none)

/-- The loop body of `RoadmapParser._find_ancestor_chain`, with the remaining
depth as fuel (the source uses `max_depth = 10`).  Only labeled parents are
collected; the walk stops at a missing or falsy parent id. -/
def findAncestorChainGo (pm : String → Option String) (byId : String → Option Node) :
    Nat → String → List Node
  | 0, _ => []
  | d + 1, cur =>
    match pm cur with
    | none => []
    | some pid =>
      if pid = "" then []
      else
        match byId pid with
        | some pn =>
          if pn.label ≠ "" then pn :: findAncestorChainGo pm byId d pid
          else findAncestorChainGo pm byId d pid
        | none => findAncestorChainGo pm byId d pid

/-- `RoadmapParser._find_ancestor_chain` with its default `max_depth = 10`. -/
def findAncestorChain (nodeId : String) (pm : String → Option String)
    (byId : String → Option Node) : List Node :=
  findAncestorChainGo pm byId 10 nodeId

/-- `RoadmapParser._infer_from_siblings`.  `defaultCat` is `self.category`,
the formatted roadmap name. -/
def inferFromSiblings (defaultCat : String) (node : Node) (pm : String → Option String)
    (byId : String → Option Node) : String :=
  let fallback := if node.label ≠ "" then node.label else defaultCat
  match pm node.id with
  | some pid =>
    if pid = "" then fallback
    else
      match byId pid with
      | some pn => if pn.label ≠ "" then pn.label else fallback
      | none => fallback
  | none => fallback

/-- The node kinds retained as meaningful ancestors in `_detect_hierarchy`. -/
def meaningfulType (t : String) : Bool :=
  t == "label" || t == "topic" || t == "paragraph"

/-- `RoadmapParser._detect_hierarchy`: classify a topic node from its
ancestor chain.  `meaningful[-1]` (the furthest meaningful ancestor) becomes
the category, `meaningful[0]` (the nearest) the subcategory. -/
def detectHierarchy (defaultCat : String) (t : Node) (pm : String → Option String)
    (byId : String → Option Node) : String × String :=
  let ancestors := findAncestorChain t.id pm byId
  if ancestors.isEmpty then
    (inferFromSiblings defaultCat t pm byId, "")
  else
    match ancestors.filter (fun a => meaningfulType a.type) with
    | [] => (defaultCat, "")
    | [a] => (a.label, "")
    | a :: rest => ((rest.getLastD a).label, a.label)

/-- One output record of `extract_topics` (the position dictionary is
flattened to its `x`/`y` entries). -/
structure Topic where
  id : String
  label : String
  type : String
  x : Rat
  y : Rat
  category : String
  subcategory : String
deriving DecidableEq, Repr

/-- The record built for one topic node in the `extract_topics` loop. -/
def mkTopic (defaultCat : String) (pm : String → Option String)
    (byId : String → Option Node) (t : Node) : Topic :=
  let cs := detectHierarchy defaultCat t pm byId
  Topic.mk t.id t.label t.type t.x t.y cs.1 cs.2

/-- `RoadmapParser.extract_topics`: extract all nodes, build the parent
lookup, and classify every node of type `topic` or `subtopic`. -/
def extractTopics (defaultCat : String) (nodes : List RawNode) (edges : List RawEdge) :
    Except Unit (List Topic) :=
  (extractAllNodes nodes).map (fun allNodes =>
    let pm := buildParentGraph edges
    let byId := nodesById allNodes
    let topicNodes := allNodes.filter (fun n => n.type == "topic" || n.type == "subtopic")
    topicNodes.map (mkTopic defaultCat pm byId))

/-- Helper for Python `str.title()`: the boolean argument records whether the
previous character was alphabetic (cased). -/
def pyTitleGo : Bool → List Char → List Char
  | _, [] => []
  | prevCased, c :: rest =>
    if c.isAlpha then
      (if prevCased then c.toLower else c.toUpper) :: pyTitleGo true rest
    else
      c :: pyTitleGo false rest

/-- Python `str.title()` (restricted to alphabetic characters as the cased
characters, which covers the roadmap names in play). -/
def pyTitle (s : String) : String :=
  ⟨pyTitleGo false s.data⟩

/-- `RoadmapParser._format_category_name`: replace hyphens with spaces and
title-case. -/
def formatCategoryName (name : String) : String :=
  pyTitle ⟨name.data.map (fun c => if c = '-' then ' ' else c)⟩

/-- Attempt to match the regex `\[([^\]]+)\]\(([^\)]+)\)` at the start of the
character list.  Both character classes exclude their closing bracket, so the
greedy `+` deterministically runs to the first closing bracket.  Returns the
two groups and the rest of the input after the match. -/
def matchLinkAt : List Char → Option (List Char × List Char × List Char)
  | '[' :: rest =>
    match rest.span (fun c => c ≠ ']') with
    | (txt, r1) =>
      match txt, r1 with
      | [], _ => none
      | _ :: _, ']' :: '(' :: r2 =>
        (match r2.span (fun c => c ≠ ')') with
        | (url, r3) =>
          match url, r3 with
          | [], _ => none
          | _ :: _, ')' :: r4 => some (txt, url, r4)
          | _, _ => none)
      | _, _ => none
  | _ => none

/-- Left-to-right scan of `re.findall` for the markdown-link pattern: at each
position try a match; on success record the two groups and resume after the
match, otherwise advance one character.  The fuel starts at the input length,
which is enough because every step consumes at least one character. -/
def findLinksGo : Nat → List Char → List (String × String)
  | 0, _ => []
  | _, [] => []
  | fuel + 1, c :: rest =>
    match matchLinkAt (c :: rest) with
    | some (txt, url, r) => (⟨txt⟩, ⟨url⟩) :: findLinksGo fuel r
    | none => findLinksGo fuel rest

/-- `re.findall(r'\[([^\]]+)\]\(([^\)]+)\)', content)`. -/
def findLinks (content : String) : List (String × String) :=
  findLinksGo content.data.length content.data

/-- `re.sub` of the link pattern with the display-text group: every match is
replaced by its first group, non-matching characters are copied through. -/
def subLinksGo : Nat → List Char → List Char
  | 0, l => l
  | _, [] => []
  | fuel + 1, c :: rest =>
    match matchLinkAt (c :: rest) with
    | some (txt, _, r) => txt ++ subLinksGo fuel r
    | none => c :: subLinksGo fuel rest

/-- `re.sub(r'\[([^\]]+)\]\(([^\)]+)\)', r'\1', line)`. -/
def removeLinks (line : String) : String :=
  ⟨subLinksGo line.data.length line.data⟩

/-- Python `content.split('\n')` on the character list: split at every
newline; the empty string splits to one empty piece. -/
def pySplitOnNl : List Char → List (List Char)
  | [] => [[]]
  | c :: rest =>
    if c = '\n' then [] :: pySplitOnNl rest
    else
      match pySplitOnNl rest with
      | [] => [[c]]
      | h :: t => (c :: h) :: t

/-- Python `str.strip()`: drop whitespace from both ends. -/
def pyStrip (l : List Char) : List Char :=
  ((l.dropWhile Char.isWhitespace).reverse.dropWhile Char.isWhitespace).reverse

/-- Python `str.startswith('#')`. -/
def startsHash : List Char → Bool
  | '#' :: _ => true
  | _ => false

/-- Python `sep.join(pieces)` on character lists. -/
def joinSep (sep : List Char) : List (List Char) → List Char
  | [] => []
  | [x] => x
  | x :: y :: t => x ++ sep ++ joinSep sep (y :: t)

/-- The per-line loop of `RoadmapParser._extract_description`: keep the
stripped line when it is non-empty and not a heading.  The `re.sub` result is
computed into the local `line` variable but the source then appends
`stripped`, the value taken before the substitution — the substitution is
dead code, mirrored here by the unused binding. -/
def descriptionLines : List (List Char) → List (List Char)
  | [] => []
  | line :: rest =>
    let stripped := pyStrip line
    if !stripped.isEmpty && !startsHash stripped then
      let _line := subLinksGo line.length line
      stripped :: descriptionLines rest
    else
      descriptionLines rest

/-- `RoadmapParser._extract_description`. -/
def extractDescription (content : String) : String :=
  ⟨pyStrip (joinSep [' '] (descriptionLines (pySplitOnNl content.data)))⟩

/-- Consume the literal character list `lit` from the front of `l`. -/
def dropLit : List Char → List Char → Option (List Char)
  | [], l => some l
  | p :: ps, c :: l => if c = p then dropLit ps l else none
  | _ :: _, [] => none

/-- Attempt to match the regex `https?://[^\s\)]+` at the start of the
character list.  Returns the matched text and the rest of the input.  The
optional `s` needs no backtracking because `://` cannot start with `s`. -/
def matchBareAt (l : List Char) : Option (List Char × List Char)  :=
  match dropLit "http".data l with
  | none => none
  | some r0 =>
    let step (pre : List Char) (r : List Char) : Option (List Char × List Char) :=
      match dropLit "://".data r with
      | none => none
      | some r1 =>
        match r1.span (fun c => !(c.isWhitespace || c = ')')) with
        | (body, r2) =>
          match body with
          | [] => none
          | _ :: _ => some (pre ++ "://".data ++ body, r2)
    match r0 with
    | 's' :: r0' => step "https".data r0'
    | _ => step "http".data r0

/-- Left-to-right scan of `re.findall` for the bare-URL pattern. -/
def findBareGo : Nat → List Char → List String
  | 0, _ => []
  | _, [] => []
  | fuel + 1, c :: rest =>
    match matchBareAt (c :: rest) with
    | some (m, r) => (⟨m⟩ : String) :: findBareGo fuel r
    | none => findBareGo fuel rest

/-- `re.findall(r'https?://[^\s\)]+', content)`. -/
def findBare (content : String) : List String :=
  findBareGo content.data.length content.data

/-- `list(dict.fromkeys(·))`: deduplicate keeping the first occurrence.  The
`seen` accumulator holds the keys already emitted. -/
def dedupGo (seen : List String) : List String → List String
  | [] => []
  | x :: rest => if x ∈ seen then dedupGo seen rest else x :: dedupGo (x :: seen) rest

/-- The markdown-link target URLs kept by `_extract_resources`: second group
of each link match, filtered to URLs starting with `http`. -/
def linkUrls (content : String) : List String :=
  ((findLinks content).filter (fun p => "http".data.isPrefixOf p.2.data)).map Prod.snd

/-- Python `'|'.join(urls)`. -/
def pipeJoin (l : List String) : String :=
  ⟨joinSep ['|'] (l.map String.data)⟩

/-- `RoadmapParser._extract_resources`: link-target URLs, then bare URLs,
deduplicated keeping first occurrences, pipe-joined. -/
def extractResources (content : String) : String :=
  pipeJoin (dedupGo [] (linkUrls content ++ findBare content))

/-- `RoadmapParser.parse_content` as the pair (description, resources). -/
def parseContent (content : String) : String × String :=
  if content = "" then ("", "")
  else (extractDescription content, extractResources content)

/-- First index at which `pat` occurs as a substring of `s` (used to express
"order of first appearance in the document"). -/
def substrIdxGo (pat : List Char) : Nat → List Char → Option Nat
  | i, [] => if pat = [] then some i else none
  | i, c :: rest =>
    if pat.isPrefixOf (c :: rest) then some i
    else substrIdxGo pat (i + 1) rest

/-- First index of `pat` in `s`, `none` when `pat` does not occur. -/
def substrIdx (s pat : String) : Option Nat :=
  substrIdxGo pat.data 0 s.data

/-- `BoundingBox` from `browser_legacy/nodes.py`. -/
structure BBox where
  x : Rat
  y : Rat
  width : Rat
  height : Rat
deriving DecidableEq, Repr

/-- `BoundingBox.contains`: containment with tolerance (the source's default
tolerance is `3.0`; every call site uses the default). -/
def BBox.contains (self other : BBox) (tol : Rat) : Prop :=
  self.x - tol ≤ other.x ∧ self.y - tol ≤ other.y ∧
  self.x + self.width + tol ≥ other.x + other.width ∧
  self.y + self.height + tol ≥ other.y + other.height

instance (a b : BBox) (t : Rat) : Decidable (BBox.contains a b t) :=
  inferInstanceAs (Decidable (a.x - t ≤ b.x ∧ a.y - t ≤ b.y ∧
    a.x + a.width + t ≥ b.x + b.width ∧ a.y + a.height + t ≥ b.y + b.height))

/-- `BoundingBox.overlaps_x`. -/
def BBox.overlapsX (self other : BBox) : Prop :=
  ¬ (self.x + self.width < other.x ∨ other.x + other.width < self.x)

instance (a b : BBox) : Decidable (BBox.overlapsX a b) :=
  inferInstanceAs (Decidable (¬ (a.x + a.width < b.x ∨ b.x + b.width < a.x)))

/-- `RoadmapNode` from `browser_legacy/nodes.py` (the Playwright element
handle is dropped; it never influences hierarchy inference). -/
structure RNode where
  text : String
  bbox : BBox
  nodeType : String
  category : String
  subcategory : String
deriving DecidableEq, Repr

/-- Python `round()`: round half to even. -/
def pyRound (q : Rat) : Int :=
  let f := ⌊q⌋
  let r := q - f
  if r < 1 / 2 then f
  else if 1 / 2 < r then f + 1
  else if f % 2 = 0 then f else f + 1

/-- The tuple hashed by `RoadmapNode.__hash__`; `__eq__` compares these, so
two nodes are "the same dictionary key" iff their keys agree. -/
def nkey (n : RNode) : String × Int × Int × Int × Int :=
  (n.text, pyRound n.bbox.x, pyRound n.bbox.y, pyRound n.bbox.width, pyRound n.bbox.height)

/-- `c.bbox.width * c.bbox.height`, the sort key used for "smallest by
area". -/
def areaKey (c : RNode) : Rat :=
  c.bbox.width * c.bbox.height

/-- The comparison relation underlying Python `sorted(..., key=...)` with a
rational key. -/
def keyLe {α : Type} (key : α → Rat) (a b : α) : Prop :=
  key a ≤ key b

instance {α : Type} (key : α → Rat) : DecidableRel (keyLe key) := fun a b =>
  inferInstanceAs (Decidable (key a ≤ key b))

/-- Python `sorted(l, key=key)` / `l.sort(key=key)`: a stable sort by the
key.  `List.insertionSort` with the key order is stable, so it computes the
same list as Python's stable sort. -/
def pySortByKey {α : Type} (key : α → Rat) (l : List α) : List α :=
  List.insertionSort (keyLe key) l

/-- The earliest element of the list attaining the minimal key (what
`sorted(l, key=key)[0]` returns, by stability). -/
def firstMinBy {α : Type} (key : α → Rat) : List α → Option α
  | [] => none
  | a :: t =>
    match firstMinBy key t with
    | none => some a
    | some m => if key a ≤ key m then some a else some m

/-- The `potential_parents` list computed for one container in
`infer_hierarchy`: the other containers (by the `__eq__` key) whose box
contains this one. -/
def potentialParents (containers : List RNode) (c : RNode) : List RNode :=
  containers.filter (fun p => decide (nkey p ≠ nkey c) && decide (p.bbox.contains c.bbox 3))

/-- One iteration of the first loop of `infer_hierarchy` building the
`container_parents` dictionary: if the container's `potential_parents` list
is non-empty, bind the container's key to the smallest parent by area
(stable sort, first entry), overwriting any earlier binding of the same key
as a Python dictionary does. -/
def cpmStep (containers : List RNode)
    (m : (String × Int × Int × Int × Int) → Option RNode) (c : RNode) :
    (String × Int × Int × Int × Int) → Option RNode :=
  match (pySortByKey areaKey (potentialParents containers c)).head? with
  | some p => fun k => if k = nkey c then some p else m k
  | none => m

/-- See `cpmStep`: the dictionary is the fold of the per-container updates
over the container list, starting from the empty dictionary. -/
def containerParentsMap (containers : List RNode) :
    (String × Int × Int × Int × Int) → Option RNode :=
  containers.foldl (cpmStep containers) (fun _ => none)

/-- The second loop of `infer_hierarchy`: a container with a parent becomes a
subcategory (category = parent's text, subcategory = own text); a container
without one is a top-level category. -/
def resolveContainer (cpm : (String × Int × Int × Int × Int) → Option RNode)
    (c : RNode) : RNode :=
  match cpm (nkey c) with
  | some p => { c with category := p.text, subcategory := c.text }
  | none => { c with category := c.text, subcategory := "" }

/-- The candidate filter in `NodeExtractor._find_nearest_header`: containers
strictly above the leaf whose x-range overlaps the leaf's. -/
def headerCandidates (leaf : RNode) (containers : List RNode) : List RNode :=
  containers.filter
    (fun c => decide (c.bbox.y < leaf.bbox.y) && decide (c.bbox.overlapsX leaf.bbox))

/-- The sort key of `_find_nearest_header`: vertical distance from the
candidate's bottom edge to the leaf's top edge. -/
def vKey (leaf c : RNode) : Rat :=
  leaf.bbox.y - (c.bbox.y + c.bbox.height)

/-- `NodeExtractor._find_nearest_header`. -/
def findNearestHeader (leaf : RNode) (containers : List RNode) : String × String :=
  match (pySortByKey (vKey leaf) (headerCandidates leaf containers)).head? with
  | none => ("Uncategorized", "")
  | some nearest => (nearest.category, nearest.subcategory)

/-- The `enclosing_containers` list computed for one leaf in
`infer_hierarchy`. -/
def enclosingContainers (containers : List RNode) (leaf : RNode) : List RNode :=
  containers.filter (fun c => decide (c.bbox.contains leaf.bbox 3))

/-- The third loop of `infer_hierarchy`: a leaf takes the resolved pair of
its smallest enclosing container, falling back to the nearest header above. -/
def assignLeaf (containers2 : List RNode) (l : RNode) : RNode :=
  match (pySortByKey areaKey (enclosingContainers containers2 l)).head? with
  | some smallest =>
    { l with category := smallest.category, subcategory := smallest.subcategory }
  | none =>
    let cs := findNearestHeader l containers2
    { l with category := cs.1, subcategory := cs.2 }

/-- The effect of `infer_hierarchy` on one node of the input list:
containers are resolved by the container pass, leaves by the leaf pass,
anything else is untouched. -/
def resolveNode (cpm : (String × Int × Int × Int × Int) → Option RNode)
    (containers2 : List RNode) (n : RNode) : RNode :=
  if n.nodeType == "container" then resolveContainer cpm n
  else if n.nodeType == "leaf" then assignLeaf containers2 n
  else n

/-- `NodeExtractor.infer_hierarchy`: resolve containers first, then leaves
against the resolved containers; the input list is returned with the
mutations applied. -/
def inferHierarchy (nodes : List RNode) : List RNode :=
  let containers := nodes.filter (fun n => n.nodeType == "container")
  let cpm := containerParentsMap containers
  let containers2 := containers.map (resolveContainer cpm)
  nodes.map (resolveNode cpm containers2)

/-- Hypothesis predicate: `outer` contains `inner` with a margin strictly
greater than `tol` on every side ("strictly contains by more than the
tolerance"). -/
def strictBeyondTol (outer inner : BBox) (tol : Rat) : Prop :=
  outer.x + tol < inner.x ∧ outer.y + tol < inner.y ∧
  inner.x + inner.width + tol < outer.x + outer.width ∧
  inner.y + inner.height + tol < outer.y + outer.height

instance (a b : BBox) (t : Rat) : Decidable (strictBeyondTol a b t) :=
  inferInstanceAs (Decidable (a.x + t < b.x ∧ a.y + t < b.y ∧
    b.x + b.width + t < a.x + a.width ∧ b.y + b.height + t < a.y + a.height))

/-- Absolute value on `Rat`, spelled out for the spec-side tie-break key. -/
def ratAbs (q : Rat) : Rat :=
  if q < 0 then -q else q

/-- The selection key the spec claims for the nearest-header fallback:
primary = vertical distance, tie-break = vertical + 0.5 × horizontal
distance. -/
def specHeaderKey (leaf c : RNode) : Rat × Rat :=
  (vKey leaf c, vKey leaf c + ratAbs (c.bbox.x - leaf.bbox.x) * (1 / 2))

/-- Earliest element minimizing a lexicographic rational pair key. -/
def firstMinByLex {α : Type} (key : α → Rat × Rat) : List α → Option α
  | [] => none
  | a :: t =>
    match firstMinByLex key t with
    | none => some a
    | some m =>
      if (key a).1 < (key m).1 ∨ ((key a).1 = (key m).1 ∧ (key a).2 ≤ (key m).2)
      then some a else some m

/-- The nearest-header rule as the claim words it (modelled from the spec,
for comparison with `findNearestHeader`): among candidates above with
overlapping x-range, pick the minimizer of the vertical distance with ties
broken by vertical + 0.5 × horizontal distance. -/
def specNearestHeader (leaf : RNode) (containers : List RNode) : String × String :=
  match firstMinByLex (specHeaderKey leaf) (headerCandidates leaf containers) with
  | none => ("Uncategorized", "")
  | some c => (c.category, c.subcategory)

/-- Whether an optional coordinate/size value can be handed to `float()`
without raising: either the key is absent (defaults apply) or the value is
numeric. -/
def optNumeric : Option PyVal → Bool
  | some v => (pyFloat? v).isSome
  | none => true

/-- Hypothesis predicate for the safety claim: every value of this raw node
that `_extract_all_nodes` may pass to `float()` is numeric. -/
def RawNode.coordsNumeric (n : RawNode) : Bool :=
  (match n.position with
   | some (xo, yo) => optNumeric xo && optNumeric yo
   | none => true) && optNumeric n.width? && optNumeric n.height?

/-! ### Helper lemmas -/

/-- The head of the stable sort is the earliest element with minimal key. -/
theorem head?_pySortByKey {α : Type} (key : α → Rat) (l : List α) :
    (pySortByKey key l).head? = firstMinBy key l := by
  induction l with
  | nil => rfl
  | cons a t ih =>
    simp only [pySortByKey, List.insertionSort] at ih ⊢
    rcases hs : List.insertionSort (keyLe key) t with _ | ⟨b, t'⟩
    · have h0 : firstMinBy key t = none := by rw [← ih, hs]; rfl
      simp [firstMinBy, h0, List.orderedInsert]
    · have h0 : firstMinBy key t = some b := by rw [← ih, hs]; rfl
      simp only [firstMinBy, h0, List.orderedInsert]
      by_cases h : key a ≤ key b
      · simp [keyLe, h]
      · simp [keyLe, h]

theorem firstMinBy_mem {α : Type} {key : α → Rat} :
    ∀ {l : List α} {m : α}, firstMinBy key l = some m → m ∈ l := by
  intro l
  induction l with
  | nil => intro m h; cases h
  | cons a t ih =>
    intro m h
    rcases ht : firstMinBy key t with _ | m'
    · simp only [firstMinBy, ht] at h
      cases h
      exact List.mem_cons_self a t
    · simp only [firstMinBy, ht] at h
      by_cases hle : key a ≤ key m'
      · rw [if_pos hle] at h
        cases h
        exact List.mem_cons_self a t
      · rw [if_neg hle] at h
        cases h
        exact List.mem_cons_of_mem a (ih ht)

theorem firstMinBy_eq_none {α : Type} {key : α → Rat} :
    ∀ {l : List α}, firstMinBy key l = none ↔ l = [] := by
  intro l
  cases l with
  | nil => simp [firstMinBy]
  | cons a t =>
    rcases h : firstMinBy key t with _ | m <;> simp only [firstMinBy, h]
    · simp
    · constructor
      · intro hc
        by_cases hle : key a ≤ key m
        · rw [if_pos hle] at hc; cases hc
        · rw [if_neg hle] at hc; cases hc
      · intro hc; cases hc

theorem firstMinBy_le {α : Type} {key : α → Rat} :
    ∀ {l : List α} {m : α}, firstMinBy key l = some m → ∀ x ∈ l, key m ≤ key x := by
  intro l
  induction l with
  | nil => intro m h; cases h
  | cons a t ih =>
    intro m h x hx
    rcases ht : firstMinBy key t with _ | m'
    · simp only [firstMinBy, ht] at h
      cases h
      rcases List.mem_cons.mp hx with rfl | hxt
      · exact le_refl _
      · rw [firstMinBy_eq_none.mp ht] at hxt
        cases hxt
    · simp only [firstMinBy, ht] at h
      rcases List.mem_cons.mp hx with hxa | hxt
      · by_cases hle : key a ≤ key m'
        · rw [if_pos hle] at h; cases h; rw [hxa]
        · rw [if_neg hle] at h; cases h; rw [hxa]; exact le_of_not_le hle
      · by_cases hle : key a ≤ key m'
        · rw [if_pos hle] at h; cases h; exact le_trans hle (ih ht x hxt)
        · rw [if_neg hle] at h; cases h; exact ih ht x hxt

/-- If every list element is either `v` or has a strictly larger key, and `v`
occurs, then the earliest minimizer is `v`. -/
theorem firstMinBy_eq_of {α : Type} {key : α → Rat} {v : α} :
    ∀ {l : List α}, v ∈ l → (∀ x ∈ l, x = v ∨ key v < key x) →
      firstMinBy key l = some v := by
  intro l
  induction l with
  | nil => intro h; cases h
  | cons a t ih =>
    intro hv hall
    by_cases hav : a = v
    · subst hav
      rcases ht : firstMinBy key t with _ | m'
      · simp only [firstMinBy, ht]
      · simp only [firstMinBy, ht]
        have hm' : m' ∈ t := firstMinBy_mem ht
        rcases hall m' (List.mem_cons_of_mem a hm') with rfl | hlt
        · rw [if_pos (le_refl _)]
        · rw [if_pos (le_of_lt hlt)]
    · have hvt : v ∈ t := by
        rcases List.mem_cons.mp hv with rfl | h
        · exact absurd rfl hav
        · exact h
      have ht := ih hvt (fun x hx => hall x (List.mem_cons_of_mem a hx))
      simp only [firstMinBy, ht]
      rcases hall a (List.mem_cons_self a t) with rfl | hlt
      · exact absurd rfl hav
      · rw [if_neg (not_le_of_lt hlt)]

/-- `dedupGo` avoids the `seen` accumulator and produces no duplicates. -/
theorem dedupGo_nodup :
    ∀ (l seen : List String), (dedupGo seen l).Nodup ∧ ∀ x ∈ dedupGo seen l, x ∉ seen := by
  intro l
  induction l with
  | nil => intro seen; exact ⟨List.nodup_nil, by intro x hx; cases hx⟩
  | cons a t ih =>
    intro seen
    by_cases ha : a ∈ seen
    · simpa [dedupGo, ha] using ih seen
    · simp only [dedupGo, if_neg ha]
      obtain ⟨hnd, hout⟩ := ih (a :: seen)
      refine ⟨List.nodup_cons.mpr ⟨fun hmem => ?_, hnd⟩, ?_⟩
      · exact hout a hmem (List.mem_cons_self a seen)
      · intro x hx
        rcases List.mem_cons.mp hx with rfl | hxt
        · exact ha
        · intro hxs
          exact hout x hxt (List.mem_cons_of_mem a hxs)

/-- `dedupGo` returns a subsequence of its input: order is preserved. -/
theorem dedupGo_sublist :
    ∀ (l seen : List String), List.Sublist (dedupGo seen l) l := by
  intro l
  induction l with
  | nil => intro seen; simp [dedupGo]
  | cons a t ih =>
    intro seen
    by_cases ha : a ∈ seen
    · simp only [dedupGo, if_pos ha]
      exact (ih seen).trans (List.sublist_cons_self a t)
    · simp only [dedupGo, if_neg ha]
      exact (ih (a :: seen)).cons₂ a

/-- Every node surviving `_extract_all_nodes` has a non-empty label. -/
theorem extractAllNodes_label_ne :
    ∀ {ns : List RawNode} {l : List Node}, extractAllNodes ns = .ok l →
      ∀ n ∈ l, n.label ≠ "" := by
  intro ns
  induction ns with
  | nil =>
    intro l h n hn
    cases h
    cases hn
  | cons r rest ih =>
    intro l h n hn
    rw [extractAllNodes] at h
    rcases hp : r.position with _ | ⟨x?, y?⟩
    · rw [hp] at h
      exact ih h n hn
    · rw [hp] at h
      rcases x? with _ | xv <;> rcases y? with _ | yv
      · exact ih h n hn
      · exact ih h n hn
      · exact ih h n hn
      · simp only at h
        by_cases hl : r.label?.getD "" = ""
        · rw [if_pos hl] at h
          exact ih h n hn
        · rw [if_neg hl] at h
          rcases hx : pyFloat? xv with _ | x <;> rw [hx] at h
          · cases h
          rcases hy : pyFloat? yv with _ | y <;> rw [hy] at h
          · cases h
          rcases hw : pyFloat? (r.width?.getD (PyVal.vnum 0)) with _ | w <;> rw [hw] at h
          · cases h
          rcases hh : pyFloat? (r.height?.getD (PyVal.vnum 0)) with _ | hq <;> rw [hh] at h
          · cases h
          rcases hrest : extractAllNodes rest with e | l' <;> rw [hrest] at h
          · cases h
          · simp only [Except.map] at h
            cases h
            rcases List.mem_cons.mp hn with rfl | hn'
            · exact hl
            · exact ih hrest n hn'

/-- When every value handed to `float()` is numeric, `_extract_all_nodes`
completes normally. -/
theorem extractAllNodes_ok_of_numeric :
    ∀ {ns : List RawNode}, (∀ n ∈ ns, n.coordsNumeric = true) →
      ∃ l, extractAllNodes ns = .ok l := by
  intro ns
  induction ns with
  | nil => intro _; exact ⟨[], rfl⟩
  | cons r rest ih =>
    intro h
    have hr := h r (List.mem_cons_self r rest)
    have hrest := ih (fun n hn => h n (List.mem_cons_of_mem r hn))
    obtain ⟨l, hl⟩ := hrest
    rw [RawNode.coordsNumeric] at hr
    simp only [Bool.and_eq_true] at hr
    obtain ⟨⟨hpos, hw⟩, hh⟩ := hr
    rw [extractAllNodes]
    rcases hp : r.position with _ | ⟨x?, y?⟩
    · exact ⟨l, hl⟩
    · rcases x? with _ | xv <;> rcases y? with _ | yv
      · exact ⟨l, hl⟩
      · exact ⟨l, hl⟩
      · exact ⟨l, hl⟩
      · rw [hp] at hpos
        simp only [Bool.and_eq_true] at hpos
        obtain ⟨hxv, hyv⟩ := hpos
        simp only
        by_cases hlab : r.label?.getD "" = ""
        · rw [if_pos hlab]
          exact ⟨l, hl⟩
        · rw [if_neg hlab]
          obtain ⟨x, hx⟩ := Option.isSome_iff_exists.mp hxv
          obtain ⟨y, hy⟩ := Option.isSome_iff_exists.mp hyv
          have hwv : (pyFloat? (r.width?.getD (PyVal.vnum 0))).isSome = true := by
            rcases hwd : r.width? with _ | wv
            · rfl
            · rw [hwd] at hw; exact hw
          have hhv : (pyFloat? (r.height?.getD (PyVal.vnum 0))).isSome = true := by
            rcases hhd : r.height? with _ | hv
            · rfl
            · rw [hhd] at hh; exact hh
          obtain ⟨w, hwq⟩ := Option.isSome_iff_exists.mp hwv
          obtain ⟨hq, hhq⟩ := Option.isSome_iff_exists.mp hhv
          rw [hx, hy, hwq, hhq, hl]
          exact ⟨_, rfl⟩

/-- Every ancestor collected by the chain walk carries a non-empty label. -/
theorem findAncestorChainGo_label_ne (pm : String → Option String)
    (byId : String → Option Node) :
    ∀ (d : Nat) (cur : String) (a : Node),
      a ∈ findAncestorChainGo pm byId d cur → a.label ≠ "" := by
  intro d
  induction d with
  | zero => intro cur a ha; cases ha
  | succ d ih =>
    intro cur a ha
    rcases hpm : pm cur with _ | pid
    · simp only [findAncestorChainGo, hpm] at ha
      cases ha
    · simp only [findAncestorChainGo, hpm] at ha
      by_cases hpid : pid = ""
      · rw [if_pos hpid] at ha; cases ha
      · rw [if_neg hpid] at ha
        rcases hby : byId pid with _ | pn <;> simp only [hby] at ha
        · exact ih pid a ha
        · by_cases hlab : pn.label ≠ ""
          · rw [if_pos hlab] at ha
            rcases List.mem_cons.mp ha with haa | ha'
            · rw [haa]; exact hlab
            · exact ih pid a ha'
          · rw [if_neg hlab] at ha
            exact ih pid a ha

/-- The category computed by `_detect_hierarchy` is non-empty whenever the
default category and the node's own label are. -/
theorem detectHierarchy_cat_ne (d : String) (t : Node) (pm : String → Option String)
    (byId : String → Option Node) (hd : d ≠ "") (ht : t.label ≠ "") :
    (detectHierarchy d t pm byId).1 ≠ "" := by
  rw [detectHierarchy]
  by_cases he : (findAncestorChain t.id pm byId).isEmpty
  · rw [if_pos he]
    show inferFromSiblings d t pm byId ≠ ""
    rw [inferFromSiblings]
    simp only [if_pos ht]
    rcases hpm : pm t.id with _ | pid
    · simp only [hpm]
      exact ht
    · simp only [hpm]
      by_cases hpid : pid = ""
      · rw [if_pos hpid]; exact ht
      · rw [if_neg hpid]
        rcases hby : byId pid with _ | pn
        · simp only [hby]
          exact ht
        · simp only [hby]
          by_cases hlab : pn.label ≠ ""
          · rw [if_pos hlab]; exact hlab
          · rw [if_neg hlab]; exact ht
  · rw [if_neg he]
    rcases hm : (findAncestorChain t.id pm byId).filter (fun a => meaningfulType a.type) with
      _ | ⟨a, rest⟩
    · simp only [hm]
      exact hd
    · have hmem : ∀ x ∈ a :: rest, x.label ≠ "" := by
        intro x hx
        have hx' : x ∈ (findAncestorChain t.id pm byId).filter
            (fun a => meaningfulType a.type) := hm ▸ hx
        exact findAncestorChainGo_label_ne pm byId 10 t.id x (List.mem_of_mem_filter hx')
      rcases rest with _ | ⟨b, rest'⟩
      · simp only [hm]
        exact hmem a (List.mem_cons_self a [])
      · simp only [hm]
        exact hmem _ (List.getLastD_mem_cons (b :: rest') a)

/-- `str.title()` preserves length, so a non-empty roadmap name formats to a
non-empty category. -/
theorem formatCategoryName_ne (name : String) (h : name ≠ "") :
    formatCategoryName name ≠ "" := by
  have hlen : ∀ (b : Bool) (l : List Char), (pyTitleGo b l).length = l.length := by
    intro b l
    induction l generalizing b with
    | nil => rfl
    | cons c rest ih =>
      rw [pyTitleGo]
      by_cases hc : c.isAlpha <;> simp [hc, ih]
  intro hcontra
  apply h
  have : (formatCategoryName name).data.length = 0 := by rw [hcontra]; rfl
  rw [formatCategoryName] at this
  simp only [pyTitle] at this
  rw [hlen, List.length_map] at this
  cases hn : name.data with
  | nil => cases name; simpa using congrArg String.mk hn
  | cons c rest => rw [hn] at this; simp at this

/-- The container pass does not change bounding boxes. -/
theorem resolveContainer_bbox (cpm : (String × Int × Int × Int × Int) → Option RNode)
    (c : RNode) : (resolveContainer cpm c).bbox = c.bbox := by
  rw [resolveContainer]
  rcases cpm (nkey c) with _ | p <;> rfl

/-- The container pass does not change text, node type, or key. -/
theorem resolveContainer_text (cpm : (String × Int × Int × Int × Int) → Option RNode)
    (c : RNode) : (resolveContainer cpm c).text = c.text := by
  rw [resolveContainer]
  rcases cpm (nkey c) with _ | p <;> rfl

/-- Folding the dictionary updates over containers none of which has key `k`
leaves the entry at `k` unchanged. -/
theorem cpmFold_not_mem (cs : List RNode) (k : String × Int × Int × Int × Int) :
    ∀ (l : List RNode) (m0 : (String × Int × Int × Int × Int) → Option RNode),
      (∀ c ∈ l, nkey c ≠ k) → l.foldl (cpmStep cs) m0 k = m0 k := by
  intro l
  induction l with
  | nil => intro m0 _; rfl
  | cons c rest ih =>
    intro m0 h
    rw [List.foldl_cons]
    rw [ih _ (fun x hx => h x (List.mem_cons_of_mem c hx))]
    rw [cpmStep]
    rcases (pySortByKey areaKey (potentialParents cs c)).head? with _ | p
    · rfl
    · simp only
      rw [if_neg (fun he => h c (List.mem_cons_self c rest) he.symm)]

/-- If every container of the fold sharing key `k` chooses parent `v`, and at
least one such container occurs, the final dictionary maps `k` to `v`. -/
theorem cpmFold_eq (cs : List RNode) (k : String × Int × Int × Int × Int) (v : RNode) :
    ∀ (l : List RNode) (m0 : (String × Int × Int × Int × Int) → Option RNode),
      (∀ c ∈ l, nkey c = k →
        (pySortByKey areaKey (potentialParents cs c)).head? = some v) →
      (∃ c ∈ l, nkey c = k) → l.foldl (cpmStep cs) m0 k = some v := by
  intro l
  induction l with
  | nil =>
    intro m0 _ hex
    obtain ⟨c, hc, _⟩ := hex
    cases hc
  | cons c rest ih =>
    intro m0 hall hex
    rw [List.foldl_cons]
    by_cases hrest : ∃ x ∈ rest, nkey x = k
    · exact ih _ (fun x hx hk => hall x (List.mem_cons_of_mem c hx) hk) hrest
    · have hnone : ∀ x ∈ rest, nkey x ≠ k := by
        intro x hx hk
        exact hrest ⟨x, hx, hk⟩
      rw [cpmFold_not_mem cs k rest _ hnone]
      have hck : nkey c = k := by
        obtain ⟨x, hx, hk⟩ := hex
        rcases List.mem_cons.mp hx with hxc | hxr
        · rw [← hxc]; exact hk
        · exact absurd ⟨x, hxr, hk⟩ hrest
      have hchoice := hall c (List.mem_cons_self c rest) hck
      rw [cpmStep, hchoice]
      simp only
      rw [if_pos hck.symm]

/-- The final dictionary at the key of a container whose key-mates all choose
parent `v`. -/
theorem containerParentsMap_eq (cs : List RNode) (v : RNode) (k : String × Int × Int × Int × Int)
    (hall : ∀ c ∈ cs, nkey c = k →
      (pySortByKey areaKey (potentialParents cs c)).head? = some v)
    (hex : ∃ c ∈ cs, nkey c = k) :
    containerParentsMap cs k = some v := by
  rw [containerParentsMap]
  exact cpmFold_eq cs k v cs _ hall hex

/-- A node with no parent entry has an empty ancestor chain at any depth. -/
theorem findAncestorChainGo_none {pm : String → Option String} {byId : String → Option Node}
    {cur : String} (h : pm cur = none) :
    ∀ d, findAncestorChainGo pm byId d cur = [] := by
  intro d
  cases d with
  | zero => rfl
  | succ d => rw [findAncestorChainGo, h]

/-- `_detect_hierarchy` on a labeled node with no parent entry returns the
node's own label and an empty subcategory. -/
theorem detectHierarchy_no_parent (d : String) (t : Node) (pm : String → Option String)
    (byId : String → Option Node) (hpm : pm t.id = none) (hlab : t.label ≠ "") :
    detectHierarchy d t pm byId = (t.label, "") := by
  have hc : findAncestorChain t.id pm byId = [] := findAncestorChainGo_none hpm 10
  rw [detectHierarchy]
  simp only [hc, List.isEmpty_nil, if_true]
  rw [inferFromSiblings]
  simp only [hpm, if_pos hlab]

/-! ### Claim theorems -/

/-- C1 counterexample: a topic node with no incoming and no outgoing edges
(empty edge list) is assigned its own label `"Git"` as category, not the
caller-supplied default `"Engineering Manager"` as the claim states. -/
theorem C1_counterexample :
    extractTopics "Engineering Manager"
        [⟨some "b", some "topic", some (some (PyVal.vnum 0), some (PyVal.vnum 0)),
          none, none, some "Git"⟩]
        []
      = Except.ok [⟨"b", "Git", "topic", 0, 0, "Git", ""⟩] ∧
    ("Git" : String) ≠ "Engineering Manager" :=
  ⟨rfl, by decide⟩

/-- C1 (amended): for every input node of kind topic or subtopic with no
entry in the parent lookup, `extract_topics` assigns it a category equal to
the node's own label (which is non-empty for every extracted node) and an
empty subcategory; the caller-supplied default is not used. -/
theorem C1_amended (d : String) (ns : List RawNode) (es : List RawEdge) (ts : List Topic)
    (hok : extractTopics d ns es = .ok ts) :
    ∀ tp ∈ ts, buildParentGraph es tp.id = none →
      tp.category = tp.label ∧ tp.subcategory = "" := by
  intro tp htp hpm
  rw [extractTopics] at hok
  rcases hall : extractAllNodes ns with e | allN
  · rw [hall] at hok; cases hok
  · rw [hall] at hok
    simp only [Except.map] at hok
    cases hok
    obtain ⟨t, ht, htp'⟩ := List.mem_map.mp htp
    have hlab : t.label ≠ "" := extractAllNodes_label_ne hall t (List.mem_of_mem_filter ht)
    subst htp'
    have hpm' : buildParentGraph es t.id = none := hpm
    have hdet : detectHierarchy d t (buildParentGraph es) (nodesById allN) = (t.label, "") :=
      detectHierarchy_no_parent d t _ _ hpm' hlab
    constructor
    · show (detectHierarchy d t (buildParentGraph es) (nodesById allN)).1 = t.label
      rw [hdet]
    · show (detectHierarchy d t (buildParentGraph es) (nodesById allN)).2 = ""
      rw [hdet]

/-- C1 witness: the amended statement applied at the isolated `"Git"` node. -/
theorem C1_amended_witness :
    (Topic.mk "b" "Git" "topic" 0 0 "Git" "").category
        = (Topic.mk "b" "Git" "topic" 0 0 "Git" "").label ∧
    (Topic.mk "b" "Git" "topic" 0 0 "Git" "").subcategory = "" :=
  C1_amended "Engineering Manager"
    [⟨some "b", some "topic", some (some (PyVal.vnum 0), some (PyVal.vnum 0)),
      none, none, some "Git"⟩]
    [] [⟨"b", "Git", "topic", 0, 0, "Git", ""⟩] rfl
    (Topic.mk "b" "Git" "topic" 0 0 "Git" "") (List.mem_cons_self _ _) rfl

/-- C2 counterexample: a node carrying a non-numeric coordinate value makes
the whole pass raise (`float('abc')` raises `ValueError`); the node is not
skipped and the pass does not complete normally. -/
theorem C2_counterexample :
    extractTopics "Engineering Manager"
        [⟨some "b", some "topic", some (some (PyVal.vstr "abc"), some (PyVal.vnum 0)),
          none, none, some "Git"⟩]
        []
      = Except.error () :=
  rfl

/-- C2 (amended): `extract_topics` never raises because of a missing
position, missing label, missing id, missing edge source/target, or an edge
referencing a nonexistent node id — those nodes/edges are skipped or degrade
gracefully; but coordinate and size values that are present must be numeric
(non-numeric values raise rather than being skipped). -/
theorem C2_amended (d : String) (ns : List RawNode) (es : List RawEdge)
    (h : ∀ n ∈ ns, n.coordsNumeric = true) :
    ∃ ts, extractTopics d ns es = Except.ok ts := by
  obtain ⟨l, hl⟩ := extractAllNodes_ok_of_numeric h
  rw [extractTopics, hl]
  exact ⟨_, rfl⟩

/-- C2 witness: the amended statement applied to a batch containing a node
without position, a node without label, an edge without source, an edge with
empty source, and an edge referencing unknown ids. -/
theorem C2_amended_witness :
    ∃ ts, extractTopics "Engineering Manager"
        [⟨some "a", some "label", some (some (PyVal.vnum 0), some (PyVal.vnum 0)),
          none, none, some "Core"⟩,
         ⟨some "b", some "topic", some (some (PyVal.vnum 1), some (PyVal.vnum 2)),
          some (PyVal.vnum 50), some (PyVal.vnum 20), some "Leadership"⟩,
         ⟨some "c", some "topic", none, none, none, some "NoPos"⟩,
         ⟨some "e", some "topic", some (some (PyVal.vnum 3), some (PyVal.vnum 4)),
          none, none, none⟩]
        [⟨some "a", some "b"⟩, ⟨none, some "b"⟩, ⟨some "zz", some "qq"⟩, ⟨some "", some "b"⟩]
      = Except.ok ts :=
  C2_amended "Engineering Manager" _ _ (by decide)

/-- C3: the code keeps the raw markdown-link syntax in the description — the
`re.sub` rewrite is computed into `line` but the pre-rewrite `stripped` value
is appended — contradicting both the claim and the source's own comment
"Remove markdown links but keep text".  On the claim's example document the
description retains `[Git](https://git-scm.com)` verbatim. -/
theorem C3_code_bug :
    (parseContent
        "# Title\nLearn [Git](https://git-scm.com) basics.\nSee also https://example.com/guide").1
      = "Learn [Git](https://git-scm.com) basics. See also https://example.com/guide" ∧
    ("Learn [Git](https://git-scm.com) basics. See also https://example.com/guide" : String)
      ≠ "Learn Git basics. See also https://example.com/guide" :=
  ⟨rfl, by decide⟩

/-- C4 counterexample: on a document where a bare URL appears (index 4)
before a markdown-link URL (index 30), the resources field lists the link
URL first — markdown-link targets always precede bare URLs — so the output
is not in order of first appearance in the document. -/
theorem C4_counterexample :
    (parseContent "See https://bare.com then [t](https://link.com) end").2
      = "https://link.com|https://bare.com" ∧
    substrIdx "See https://bare.com then [t](https://link.com) end" "https://bare.com"
      = some 4 ∧
    substrIdx "See https://bare.com then [t](https://link.com) end" "https://link.com"
      = some 30 ∧
    ("https://link.com|https://bare.com" : String) ≠ "https://bare.com|https://link.com" :=
  ⟨rfl, rfl, rfl, by decide⟩

/-- C4 (amended): the resources field is the pipe-joined deduplicated list of
markdown-link target URLs starting with `http` (in order of appearance)
followed by the bare-URL matches not already listed (in order of
appearance) — not the global first-appearance order across both kinds; no URL
appears twice (the deduplicated list has no duplicates and preserves relative
order as a subsequence), and the extraction is deterministic. -/
theorem C4_amended (content : String) :
    (parseContent content).2
        = pipeJoin (dedupGo [] (linkUrls content ++ findBare content)) ∧
    (dedupGo [] (linkUrls content ++ findBare content)).Nodup ∧
    List.Sublist (dedupGo [] (linkUrls content ++ findBare content))
      (linkUrls content ++ findBare content) := by
  refine ⟨?_, (dedupGo_nodup _ _).1, dedupGo_sublist _ _⟩
  by_cases h : content = ""
  · subst h; rfl
  · rw [parseContent, if_neg h]
    rfl

/-- C6: with exactly one meaningful ancestor the result is that ancestor's
label with empty subcategory; with two or more, the category is the label of
the furthest meaningful ancestor (last collected) and the subcategory the
label of the nearest (first collected). -/
theorem C6_confirmed (d : String) (t : Node) (pm : String → Option String)
    (byId : String → Option Node) :
    (∀ a, (findAncestorChain t.id pm byId).filter (fun x => meaningfulType x.type) = [a] →
      detectHierarchy d t pm byId = (a.label, "")) ∧
    (∀ a b rest,
      (findAncestorChain t.id pm byId).filter (fun x => meaningfulType x.type)
          = a :: b :: rest →
      detectHierarchy d t pm byId = (((b :: rest).getLastD a).label, a.label)) := by
  have hne : ∀ (l : List Node), (findAncestorChain t.id pm byId).filter
      (fun x => meaningfulType x.type) = l → l ≠ [] →
      ¬ ((findAncestorChain t.id pm byId).isEmpty = true) := by
    intro l hl hlne hc
    rw [List.isEmpty_iff] at hc
    rw [hc] at hl
    exact hlne hl.symm
  constructor
  · intro a hm
    rw [detectHierarchy]
    rw [if_neg (hne [a] hm (by intro hc; cases hc))]
    simp only [hm]
  · intro a b rest hm
    rw [detectHierarchy]
    rw [if_neg (hne (a :: b :: rest) hm (by intro hc; cases hc))]
    simp only [hm]

/-- C6 witness: the two branches applied at concrete one-ancestor and
two-ancestor chains. -/
theorem C6_witness :
    detectHierarchy "EM" ⟨"t", "T", "topic", 0, 0, 0, 0⟩
        (fun k => if k = "t" then some "p" else none)
        (fun k => if k = "p" then some ⟨"p", "P", "label", 0, 0, 0, 0⟩ else none)
      = ("P", "") ∧
    detectHierarchy "EM" ⟨"t", "T", "topic", 0, 0, 0, 0⟩
        (fun k => if k = "t" then some "p1" else if k = "p1" then some "p2" else none)
        (fun k =>
          if k = "p1" then some ⟨"p1", "Sub", "label", 0, 0, 0, 0⟩
          else if k = "p2" then some ⟨"p2", "Cat", "topic", 0, 0, 0, 0⟩ else none)
      = ("Cat", "Sub") :=
  ⟨(C6_confirmed "EM" ⟨"t", "T", "topic", 0, 0, 0, 0⟩
      (fun k => if k = "t" then some "p" else none)
      (fun k => if k = "p" then some ⟨"p", "P", "label", 0, 0, 0, 0⟩ else none)).1
      ⟨"p", "P", "label", 0, 0, 0, 0⟩ rfl,
   (C6_confirmed "EM" ⟨"t", "T", "topic", 0, 0, 0, 0⟩
      (fun k => if k = "t" then some "p1" else if k = "p1" then some "p2" else none)
      (fun k =>
        if k = "p1" then some ⟨"p1", "Sub", "label", 0, 0, 0, 0⟩
        else if k = "p2" then some ⟨"p2", "Cat", "topic", 0, 0, 0, 0⟩ else none)).2
      ⟨"p1", "Sub", "label", 0, 0, 0, 0⟩ ⟨"p2", "Cat", "topic", 0, 0, 0, 0⟩ [] rfl⟩

/-- C9: a topic node with a non-empty raw ancestor chain but no meaningful
ancestor gets the caller default category and an empty subcategory. -/
theorem C9_confirmed (d : String) (t : Node) (pm : String → Option String)
    (byId : String → Option Node)
    (h1 : findAncestorChain t.id pm byId ≠ [])
    (h2 : (findAncestorChain t.id pm byId).filter (fun x => meaningfulType x.type) = []) :
    detectHierarchy d t pm byId = (d, "") := by
  rw [detectHierarchy]
  have hne : ¬ ((findAncestorChain t.id pm byId).isEmpty = true) := by
    intro hc
    exact h1 (List.isEmpty_iff.mp hc)
  rw [if_neg hne]
  simp only [h2]

/-- C9 witness: a chain consisting of one labeled layout node of kind
`"vertical"` — a raw ancestor that is not meaningful. -/
theorem C9_witness :
    detectHierarchy "EM" ⟨"t", "T", "topic", 0, 0, 0, 0⟩
        (fun k => if k = "t" then some "p" else none)
        (fun k => if k = "p" then some ⟨"p", "L", "vertical", 0, 0, 0, 0⟩ else none)
      = ("EM", "") :=
  C9_confirmed "EM" ⟨"t", "T", "topic", 0, 0, 0, 0⟩
    (fun k => if k = "t" then some "p" else none)
    (fun k => if k = "p" then some ⟨"p", "L", "vertical", 0, 0, 0, 0⟩ else none)
    (by decide) rfl

/-- C7: with a non-empty roadmap name, `extract_topics` yields exactly one
record per extracted node of kind topic/subtopic — same length, same ids in
the same positions — and every record's category is non-empty. -/
theorem C7_confirmed (name : String) (ns : List RawNode) (es : List RawEdge)
    (allN : List Node) (ts : List Topic)
    (hname : name ≠ "")
    (hall : extractAllNodes ns = .ok allN)
    (hok : extractTopics (formatCategoryName name) ns es = .ok ts) :
    ts.length
        = (allN.filter (fun n => n.type == "topic" || n.type == "subtopic")).length ∧
    (∀ i : Nat, (ts[i]?).map Topic.id
        = ((allN.filter (fun n => n.type == "topic" || n.type == "subtopic"))[i]?).map
            Node.id) ∧
    (∀ tp ∈ ts, tp.category ≠ "") := by
  rw [extractTopics, hall] at hok
  simp only [Except.map] at hok
  cases hok
  refine ⟨List.length_map _ _, ?_, ?_⟩
  · intro i
    rw [List.getElem?_map]
    rcases h : (allN.filter (fun n => n.type == "topic" || n.type == "subtopic"))[i]? with
        _ | t
    · simp only [h]
      rfl
    · simp only [h]
      rfl
  · intro tp htp
    obtain ⟨t, ht, htp'⟩ := List.mem_map.mp htp
    subst htp'
    exact detectHierarchy_cat_ne (formatCategoryName name) t _ _
      (formatCategoryName_ne name hname)
      (extractAllNodes_label_ne hall t (List.mem_of_mem_filter ht))

/-- C7 witness: the invariant applied at the spec's end-to-end graph
example — one label node `"Core Skills"` and one topic `"Leadership"` joined
by an edge. -/
theorem C7_witness :
    (Topic.mk "b" "Leadership" "topic" 10 50 "Core Skills" "").category ≠ "" :=
  (C7_confirmed "engineering-manager"
      [⟨some "a", some "label", some (some (PyVal.vnum 0), some (PyVal.vnum 0)),
        none, none, some "Core Skills"⟩,
       ⟨some "b", some "topic", some (some (PyVal.vnum 10), some (PyVal.vnum 50)),
        none, none, some "Leadership"⟩]
      [⟨some "a", some "b"⟩]
      [⟨"a", "Core Skills", "label", 0, 0, 0, 0⟩, ⟨"b", "Leadership", "topic", 10, 50, 0, 0⟩]
      [⟨"b", "Leadership", "topic", 10, 50, "Core Skills", ""⟩]
      (by decide) rfl rfl).2.2
    (Topic.mk "b" "Leadership" "topic" 10 50 "Core Skills" "") (List.mem_cons_self _ _)

/-! ### Geometry support lemmas -/

/-- Strict beyond-tolerance containment implies the source's tolerant
containment test. -/
theorem contains_of_strict {a b : BBox} (h : strictBeyondTol a b 3) : a.contains b 3 := by
  obtain ⟨h1, h2, h3, h4⟩ := h
  unfold BBox.contains
  refine ⟨by linarith, by linarith, by linarith, by linarith⟩

/-- Whatever a strictly-contained box contains (tolerantly), the outer box
contains as well. -/
theorem contains_trans_strict {a b c : BBox} (h : strictBeyondTol a b 3)
    (hbc : b.contains c 3) : a.contains c 3 := by
  obtain ⟨h1, h2, h3, h4⟩ := h
  unfold BBox.contains at hbc ⊢
  obtain ⟨g1, g2, g3, g4⟩ := hbc
  refine ⟨by linarith, by linarith, by linarith, by linarith⟩

/-- Strict beyond-tolerance containment is transitive. -/
theorem strictBeyondTol_trans {a b c : BBox} (h1 : strictBeyondTol a b 3)
    (h2 : strictBeyondTol b c 3) : strictBeyondTol a c 3 := by
  obtain ⟨p1, p2, p3, p4⟩ := h1
  obtain ⟨q1, q2, q3, q4⟩ := h2
  refine ⟨by linarith, by linarith, by linarith, by linarith⟩

/-- A strictly-contained box never tolerantly contains its container. -/
theorem not_contains_of_strict {a b : BBox} (h : strictBeyondTol a b 3) :
    ¬ b.contains a 3 := by
  obtain ⟨h1, _, _, _⟩ := h
  intro hc
  unfold BBox.contains at hc
  obtain ⟨g1, _, _, _⟩ := hc
  linarith

/-- Strict beyond-tolerance containment of non-degenerate boxes strictly
decreases area. -/
theorem areaKey_lt {a b : RNode} (h : strictBeyondTol a.bbox b.bbox 3)
    (hw : 0 ≤ b.bbox.width) (hh : 0 ≤ b.bbox.height) : areaKey b < areaKey a := by
  obtain ⟨h1, h2, h3, h4⟩ := h
  rw [areaKey, areaKey]
  have hbw : b.bbox.width < a.bbox.width := by linarith
  have hbh : b.bbox.height < a.bbox.height := by linarith
  have hah : (0 : Rat) < a.bbox.height := by linarith
  calc b.bbox.width * b.bbox.height
      ≤ b.bbox.width * a.bbox.height := mul_le_mul_of_nonneg_left (le_of_lt hbh) hw
    _ < a.bbox.width * a.bbox.height := mul_lt_mul_of_pos_right hbw hah

/-- The container pass does not change the area key. -/
theorem areaKey_resolve (cpm : (String × Int × Int × Int × Int) → Option RNode)
    (c : RNode) : areaKey (resolveContainer cpm c) = areaKey c := by
  rw [areaKey, areaKey, resolveContainer_bbox]

/-- Membership in the containers sublist of `infer_hierarchy`. -/
theorem mem_containersOf {nodes : List RNode} {c : RNode} :
    c ∈ nodes.filter (fun n => n.nodeType == "container") ↔
      c ∈ nodes ∧ c.nodeType = "container" := by
  rw [List.mem_filter]
  constructor
  · intro ⟨h1, h2⟩
    exact ⟨h1, eq_of_beq h2⟩
  · intro ⟨h1, h2⟩
    exact ⟨h1, by rw [h2]; rfl⟩

/-- Filtering the resolved containers by leaf containment is the resolved
image of filtering the raw containers, since resolution keeps boxes. -/
theorem enclosingContainers_map_resolve
    (cpm : (String × Int × Int × Int × Int) → Option RNode)
    (cs : List RNode) (leaf : RNode) :
    enclosingContainers (cs.map (resolveContainer cpm)) leaf
      = (cs.filter (fun c => decide (c.bbox.contains leaf.bbox 3))).map
          (resolveContainer cpm) := by
  rw [enclosingContainers, List.filter_map]
  have hp : ((fun c : RNode => decide (c.bbox.contains leaf.bbox 3)) ∘ resolveContainer cpm)
      = (fun c : RNode => decide (c.bbox.contains leaf.bbox 3)) := by
    funext c
    simp only [Function.comp]
    rw [resolveContainer_bbox]
  rw [hp]

/-- The leaf pass with a designated strictly-smallest enclosing container. -/
theorem assignLeaf_smallest {cs2 : List RNode} {leaf v : RNode}
    (hv : v ∈ enclosingContainers cs2 leaf)
    (hmin : ∀ x ∈ enclosingContainers cs2 leaf, x = v ∨ areaKey v < areaKey x) :
    assignLeaf cs2 leaf = { leaf with category := v.category, subcategory := v.subcategory } := by
  rw [assignLeaf, head?_pySortByKey, firstMinBy_eq_of hv hmin]

/-- C5 counterexample: two candidates tie on vertical distance (both bottom
edges at 50, leaf top at 100); the code returns the first candidate in list
order (`"CatA"`), while the claim's tie-break by vertical + 0.5×horizontal
distance selects the horizontally aligned `"CatB"`. -/
theorem C5_counterexample :
    findNearestHeader ⟨"L", ⟨0, 100, 10, 10⟩, "leaf", "", ""⟩
        [⟨"A", ⟨-100, 0, 120, 50⟩, "container", "CatA", ""⟩,
         ⟨"B", ⟨0, 0, 10, 50⟩, "container", "CatB", ""⟩]
      = ("CatA", "") ∧
    specNearestHeader ⟨"L", ⟨0, 100, 10, 10⟩, "leaf", "", ""⟩
        [⟨"A", ⟨-100, 0, 120, 50⟩, "container", "CatA", ""⟩,
         ⟨"B", ⟨0, 0, 10, 50⟩, "container", "CatB", ""⟩]
      = ("CatB", "") ∧
    (("CatA", "") : String × String) ≠ ("CatB", "") :=
  ⟨by with_unfolding_all rfl, by with_unfolding_all rfl, by decide⟩

/-- C5 (amended): the fallback considers exactly the containers strictly
above the leaf with overlapping x-range and assigns the pair of the earliest
candidate in container-list order among those minimizing the vertical
distance from candidate bottom edge to leaf top edge — ties are broken by
list position (stable sort), not by a horizontal-distance term; with no
candidate the result is `("Uncategorized", "")`. -/
theorem C5_amended (leaf : RNode) (containers : List RNode) :
    (headerCandidates leaf containers = [] →
      findNearestHeader leaf containers = ("Uncategorized", "")) ∧
    (∀ c, firstMinBy (vKey leaf) (headerCandidates leaf containers) = some c →
      findNearestHeader leaf containers = (c.category, c.subcategory) ∧
      c ∈ headerCandidates leaf containers ∧
      ∀ x ∈ headerCandidates leaf containers, vKey leaf c ≤ vKey leaf x) := by
  constructor
  · intro h
    rw [findNearestHeader, head?_pySortByKey, h]
    rfl
  · intro c hc
    refine ⟨?_, firstMinBy_mem hc, firstMinBy_le hc⟩
    rw [findNearestHeader, head?_pySortByKey, hc]

/-- C5 witness: the amended statement applied at the tie example — the first
candidate `"CatA"` wins, and its vertical distance is minimal. -/
theorem C5_amended_witness :
    findNearestHeader ⟨"L", ⟨0, 100, 10, 10⟩, "leaf", "", ""⟩
        [⟨"A", ⟨-100, 0, 120, 50⟩, "container", "CatA", ""⟩,
         ⟨"B", ⟨0, 0, 10, 50⟩, "container", "CatB", ""⟩]
      = ("CatA", "") ∧
    vKey ⟨"L", ⟨0, 100, 10, 10⟩, "leaf", "", ""⟩
        ⟨"A", ⟨-100, 0, 120, 50⟩, "container", "CatA", ""⟩
      ≤ vKey ⟨"L", ⟨0, 100, 10, 10⟩, "leaf", "", ""⟩
        ⟨"B", ⟨0, 0, 10, 50⟩, "container", "CatB", ""⟩ := by
  have h := (C5_amended ⟨"L", ⟨0, 100, 10, 10⟩, "leaf", "", ""⟩
      [⟨"A", ⟨-100, 0, 120, 50⟩, "container", "CatA", ""⟩,
       ⟨"B", ⟨0, 0, 10, 50⟩, "container", "CatB", ""⟩]).2
      ⟨"A", ⟨-100, 0, 120, 50⟩, "container", "CatA", ""⟩ (by with_unfolding_all rfl)
  exact ⟨h.1, h.2.2 ⟨"B", ⟨0, 0, 10, 50⟩, "container", "CatB", ""⟩
    (by with_unfolding_all decide)⟩

/-- `infer_hierarchy` acts on the node list as a map of the per-node
resolution. -/
theorem inferHierarchy_eq (nodes : List RNode) :
    inferHierarchy nodes
      = nodes.map (resolveNode
          (containerParentsMap (nodes.filter (fun n => n.nodeType == "container")))
          ((nodes.filter (fun n => n.nodeType == "container")).map
            (resolveContainer
              (containerParentsMap (nodes.filter (fun n => n.nodeType == "container")))))) :=
  rfl

theorem resolveNode_leaf {cpm : (String × Int × Int × Int × Int) → Option RNode}
    {cs2 : List RNode} {n : RNode} (h : n.nodeType = "leaf") :
    resolveNode cpm cs2 n = assignLeaf cs2 n := by
  rw [resolveNode, h]
  rfl

theorem resolveNode_container {cpm : (String × Int × Int × Int × Int) → Option RNode}
    {cs2 : List RNode} {n : RNode} (h : n.nodeType = "container") :
    resolveNode cpm cs2 n = resolveContainer cpm n := by
  rw [resolveNode, h]
  rfl

/-- C8: a leaf (tolerantly) contained in container `B`, where `A` and `B` are
the only containers containing it and `A` strictly contains `B` by more than
the tolerance, is assigned the already-resolved pair of `B` — the smaller
enclosing container — and is never attributed to `A`. -/
theorem C8_confirmed (nodes : List RNode) (A B leaf : RNode) (i : Nat)
    (hAc : A.nodeType = "container") (hBc : B.nodeType = "container")
    (hleafT : leaf.nodeType = "leaf")
    (hBmem : B ∈ nodes)
    (hstrict : strictBeyondTol A.bbox B.bbox 3)
    (hBw : 0 ≤ B.bbox.width) (hBh : 0 ≤ B.bbox.height)
    (hBl : B.bbox.contains leaf.bbox 3)
    (honly : ∀ c ∈ nodes, c.nodeType = "container" →
      c.bbox.contains leaf.bbox 3 → c = A ∨ c = B)
    (hi : nodes[i]? = some leaf) :
    (inferHierarchy nodes)[i]?
      = some { leaf with
          category := (resolveContainer (containerParentsMap
            (nodes.filter (fun n => n.nodeType == "container"))) B).category,
          subcategory := (resolveContainer (containerParentsMap
            (nodes.filter (fun n => n.nodeType == "container"))) B).subcategory } := by
  have hBcs : B ∈ nodes.filter (fun n => n.nodeType == "container") :=
    mem_containersOf.mpr ⟨hBmem, hBc⟩
  have henc := enclosingContainers_map_resolve
    (containerParentsMap (nodes.filter (fun n => n.nodeType == "container")))
    (nodes.filter (fun n => n.nodeType == "container")) leaf
  have hvmem : resolveContainer (containerParentsMap
      (nodes.filter (fun n => n.nodeType == "container"))) B
      ∈ enclosingContainers
        ((nodes.filter (fun n => n.nodeType == "container")).map
          (resolveContainer (containerParentsMap
            (nodes.filter (fun n => n.nodeType == "container"))))) leaf := by
    rw [henc]
    exact List.mem_map_of_mem _ (List.mem_filter.mpr ⟨hBcs, decide_eq_true hBl⟩)
  have hmin : ∀ x ∈ enclosingContainers
      ((nodes.filter (fun n => n.nodeType == "container")).map
        (resolveContainer (containerParentsMap
          (nodes.filter (fun n => n.nodeType == "container"))))) leaf,
      x = resolveContainer (containerParentsMap
          (nodes.filter (fun n => n.nodeType == "container"))) B ∨
        areaKey (resolveContainer (containerParentsMap
          (nodes.filter (fun n => n.nodeType == "container"))) B) < areaKey x := by
    intro x hx
    rw [henc] at hx
    obtain ⟨c, hc, rfl⟩ := List.mem_map.mp hx
    have hc' := List.mem_filter.mp hc
    have hcmem := mem_containersOf.mp hc'.1
    have hccont : c.bbox.contains leaf.bbox 3 := of_decide_eq_true hc'.2
    rcases honly c hcmem.1 hcmem.2 hccont with rfl | rfl
    · right
      rw [areaKey_resolve, areaKey_resolve]
      exact areaKey_lt hstrict hBw hBh
    · left
      rfl
  rw [inferHierarchy_eq, List.getElem?_map, hi]
  exact congrArg some ((resolveNode_leaf hleafT).trans (assignLeaf_smallest hvmem hmin))

/-- C8 witness: the containment example `A ⊃ B ∋ leaf` with concrete boxes;
the leaf inherits `B`'s resolved pair `("A", "B")`. -/
theorem C8_witness :
    (inferHierarchy
        [⟨"A", ⟨0, 0, 100, 100⟩, "container", "", ""⟩,
         ⟨"B", ⟨10, 10, 40, 40⟩, "container", "", ""⟩,
         ⟨"x", ⟨15, 15, 5, 5⟩, "leaf", "", ""⟩])[2]?
      = some ⟨"x", ⟨15, 15, 5, 5⟩, "leaf", "A", "B"⟩ := by
  have h := C8_confirmed
    [⟨"A", ⟨0, 0, 100, 100⟩, "container", "", ""⟩,
     ⟨"B", ⟨10, 10, 40, 40⟩, "container", "", ""⟩,
     ⟨"x", ⟨15, 15, 5, 5⟩, "leaf", "", ""⟩]
    ⟨"A", ⟨0, 0, 100, 100⟩, "container", "", ""⟩
    ⟨"B", ⟨10, 10, 40, 40⟩, "container", "", ""⟩
    ⟨"x", ⟨15, 15, 5, 5⟩, "leaf", "", ""⟩ 2
    rfl rfl rfl (by decide)
    (by with_unfolding_all decide)
    (by with_unfolding_all decide) (by with_unfolding_all decide)
    (by with_unfolding_all decide)
    (by with_unfolding_all decide)
    rfl
  with_unfolding_all exact h

/-- C10: with three containers `O ⊃ M ⊃ I` (each strictly beyond the
tolerance) and no other containers, `I` resolves to
`(category = M.text, subcategory = I.text)` — its category comes from its
smallest enclosing container only — every leaf whose smallest enclosing
container is `I` inherits that same pair, and the outermost container's text
appears in neither field. -/
theorem C10_confirmed (nodes : List RNode) (O M I leaf : RNode) (i j : Nat)
    (hOc : O.nodeType = "container") (hMc : M.nodeType = "container")
    (hIc : I.nodeType = "container") (hleafT : leaf.nodeType = "leaf")
    (hOmem : O ∈ nodes) (hMmem : M ∈ nodes) (hImem : I ∈ nodes)
    (honly : ∀ c ∈ nodes, c.nodeType = "container" → c = O ∨ c = M ∨ c = I)
    (hOM : strictBeyondTol O.bbox M.bbox 3) (hMI : strictBeyondTol M.bbox I.bbox 3)
    (hMw : 0 ≤ M.bbox.width) (hMh : 0 ≤ M.bbox.height)
    (hIw : 0 ≤ I.bbox.width) (hIh : 0 ≤ I.bbox.height)
    (hkOI : nkey O ≠ nkey I) (hkMI : nkey M ≠ nkey I)
    (htOM : O.text ≠ M.text) (htOI : O.text ≠ I.text)
    (hIl : I.bbox.contains leaf.bbox 3)
    (hiI : nodes[i]? = some I) (hjl : nodes[j]? = some leaf) :
    (inferHierarchy nodes)[i]? = some { I with category := M.text, subcategory := I.text } ∧
    (inferHierarchy nodes)[j]?
      = some { leaf with category := M.text, subcategory := I.text } ∧
    M.text ≠ O.text ∧ I.text ≠ O.text := by
  have hOcs : O ∈ nodes.filter (fun n => n.nodeType == "container") :=
    mem_containersOf.mpr ⟨hOmem, hOc⟩
  have hMcs : M ∈ nodes.filter (fun n => n.nodeType == "container") :=
    mem_containersOf.mpr ⟨hMmem, hMc⟩
  have hIcs : I ∈ nodes.filter (fun n => n.nodeType == "container") :=
    mem_containersOf.mpr ⟨hImem, hIc⟩
  have csOnly : ∀ c ∈ nodes.filter (fun n => n.nodeType == "container"),
      c = O ∨ c = M ∨ c = I := by
    intro c hc
    have h := mem_containersOf.mp hc
    exact honly c h.1 h.2
  have hOI : strictBeyondTol O.bbox I.bbox 3 := strictBeyondTol_trans hOM hMI
  have hcMI : M.bbox.contains I.bbox 3 := contains_of_strict hMI
  have hcOI : O.bbox.contains I.bbox 3 := contains_of_strict hOI
  have hMl : M.bbox.contains leaf.bbox 3 := contains_trans_strict hMI hIl
  have hOl : O.bbox.contains leaf.bbox 3 := contains_trans_strict hOI hIl
  have aMO : areaKey M < areaKey O := areaKey_lt hOM hMw hMh
  have aIM : areaKey I < areaKey M := areaKey_lt hMI hIw hIh
  have aIO : areaKey I < areaKey O := lt_trans aIM aMO
  have hcpmI : containerParentsMap (nodes.filter (fun n => n.nodeType == "container"))
      (nkey I) = some M := by
    apply containerParentsMap_eq
    · intro c hc hk
      have hcI : c = I := by
        rcases csOnly c hc with rfl | rfl | rfl
        · exact absurd hk hkOI
        · exact absurd hk hkMI
        · rfl
      subst hcI
      rw [head?_pySortByKey]
      apply firstMinBy_eq_of
      · exact List.mem_filter.mpr ⟨hMcs, by rw [decide_eq_true hkMI, decide_eq_true hcMI]; rfl⟩
      · intro x hx
        have hx' := List.mem_filter.mp hx
        have hxand := hx'.2
        simp only [Bool.and_eq_true, decide_eq_true_eq] at hxand
        rcases csOnly x hx'.1 with rfl | rfl | rfl
        · right
          exact aMO
        · left
          rfl
        · exact absurd rfl hxand.1
    · exact ⟨I, hIcs, rfl⟩
  have hresI : resolveContainer (containerParentsMap
      (nodes.filter (fun n => n.nodeType == "container"))) I
      = { I with category := M.text, subcategory := I.text } := by
    rw [resolveContainer, hcpmI]
  have henc := enclosingContainers_map_resolve
    (containerParentsMap (nodes.filter (fun n => n.nodeType == "container")))
    (nodes.filter (fun n => n.nodeType == "container")) leaf
  have hvmem : resolveContainer (containerParentsMap
      (nodes.filter (fun n => n.nodeType == "container"))) I
      ∈ enclosingContainers
        ((nodes.filter (fun n => n.nodeType == "container")).map
          (resolveContainer (containerParentsMap
            (nodes.filter (fun n => n.nodeType == "container"))))) leaf := by
    rw [henc]
    exact List.mem_map_of_mem _ (List.mem_filter.mpr ⟨hIcs, decide_eq_true hIl⟩)
  have hmin : ∀ x ∈ enclosingContainers
      ((nodes.filter (fun n => n.nodeType == "container")).map
        (resolveContainer (containerParentsMap
          (nodes.filter (fun n => n.nodeType == "container"))))) leaf,
      x = resolveContainer (containerParentsMap
          (nodes.filter (fun n => n.nodeType == "container"))) I ∨
        areaKey (resolveContainer (containerParentsMap
          (nodes.filter (fun n => n.nodeType == "container"))) I) < areaKey x := by
    intro x hx
    rw [henc] at hx
    obtain ⟨c, hc, rfl⟩ := List.mem_map.mp hx
    have hc' := List.mem_filter.mp hc
    rcases csOnly c hc'.1 with rfl | rfl | rfl
    · right
      rw [areaKey_resolve, areaKey_resolve]
      exact aIO
    · right
      rw [areaKey_resolve, areaKey_resolve]
      exact aIM
    · left
      rfl
  refine ⟨?_, ?_, Ne.symm htOM, Ne.symm htOI⟩
  · rw [inferHierarchy_eq, List.getElem?_map, hiI]
    exact congrArg some ((resolveNode_container hIc).trans hresI)
  · rw [inferHierarchy_eq, List.getElem?_map, hjl]
    refine congrArg some ((resolveNode_leaf hleafT).trans
      ((assignLeaf_smallest hvmem hmin).trans ?_))
    rw [hresI]

/-- C10 witness: three strictly nested containers `O ⊃ M ⊃ I` and a leaf
inside `I`; `I` resolves to `("M", "I")`, the leaf inherits the same pair,
and `"O"` appears in neither field. -/
theorem C10_witness :
    (inferHierarchy
        [⟨"O", ⟨0, 0, 200, 200⟩, "container", "", ""⟩,
         ⟨"M", ⟨10, 10, 100, 100⟩, "container", "", ""⟩,
         ⟨"I", ⟨20, 20, 40, 40⟩, "container", "", ""⟩,
         ⟨"y", ⟨25, 25, 5, 5⟩, "leaf", "", ""⟩])[2]?
      = some ⟨"I", ⟨20, 20, 40, 40⟩, "container", "M", "I"⟩ ∧
    (inferHierarchy
        [⟨"O", ⟨0, 0, 200, 200⟩, "container", "", ""⟩,
         ⟨"M", ⟨10, 10, 100, 100⟩, "container", "", ""⟩,
         ⟨"I", ⟨20, 20, 40, 40⟩, "container", "", ""⟩,
         ⟨"y", ⟨25, 25, 5, 5⟩, "leaf", "", ""⟩])[3]?
      = some ⟨"y", ⟨25, 25, 5, 5⟩, "leaf", "M", "I"⟩ := by
  have h := C10_confirmed
    [⟨"O", ⟨0, 0, 200, 200⟩, "container", "", ""⟩,
     ⟨"M", ⟨10, 10, 100, 100⟩, "container", "", ""⟩,
     ⟨"I", ⟨20, 20, 40, 40⟩, "container", "", ""⟩,
     ⟨"y", ⟨25, 25, 5, 5⟩, "leaf", "", ""⟩]
    ⟨"O", ⟨0, 0, 200, 200⟩, "container", "", ""⟩
    ⟨"M", ⟨10, 10, 100, 100⟩, "container", "", ""⟩
    ⟨"I", ⟨20, 20, 40, 40⟩, "container", "", ""⟩
    ⟨"y", ⟨25, 25, 5, 5⟩, "leaf", "", ""⟩ 2 3
    rfl rfl rfl rfl (by decide) (by decide) (by decide) (by decide)
    (by with_unfolding_all decide) (by with_unfolding_all decide)
    (by with_unfolding_all decide) (by with_unfolding_all decide)
    (by with_unfolding_all decide) (by with_unfolding_all decide)
    (by with_unfolding_all decide) (by with_unfolding_all decide)
    (by decide) (by decide)
    (by with_unfolding_all decide)
    rfl rfl
  exact ⟨by with_unfolding_all exact h.1, by with_unfolding_all exact h.2.1⟩

end Mindmapper
